import Mathlib

/-!
Verification of the sorted-buffer search/insert primitive in `src/sort.rs`.

The three Rust functions `bsearch`, `aprox_bsearch` and `sorted_array_insert`
operate on a caller-owned buffer only through an injected comparator
`compare_f(key, ptr, index) -> Ordering` and an injected element mover
`copy_f(ptr, src, dst)`.  Since `key` and `ptr` are fixed for the duration of
one call, a call's comparator is embedded as a function `Nat → Ordering` from
the probed index to the comparison result, and the element mover is embedded
by recording the ordered list of `(src, dst)` pairs the routine passes to it;
applying those copies to a buffer modelled as `Nat → α` reproduces the Rust
call's mutation.

The Rust `while` loops decrease the window size `s` by at least one per
iteration (`s` becomes `s >> 1` or `(s - 1) >> 1`, both `≤ s - 1` for
`s > 0`), so running the loop body with a structural fuel initialised to the
starting value of `s` (`data_length`) is an exact translation: the fuel can
never be exhausted while `s > 0` (lemmas `bsearchLoop_fuel` and
`aproxLoop_fuel` below prove this fuel-irrelevance).  `s >> 1` is written
`s / 2`, and the Rust `Greater` branch's `s = s - 1` followed by the shared
`s = s >> 1` is written `(s - 1) / 2`.
-/

universe u

variable {α : Type u}

/-- Mirror of the Rust enum `AproxBinarySearchResult` in `src/sort.rs`. -/
inductive AproxBinarySearchResult where
  | ExactMatchIndex
  | AproxMatch
  | OutsideIndex
deriving DecidableEq

/-- Mirror of the Rust enum `SortedArrayAllocResult` in `src/sort.rs`. -/
inductive SortedArrayAllocResult where
  | Ok
  | ArrayCapacityExceeded
deriving DecidableEq

/-- The `while s > 0` loop of Rust `bsearch` (src/sort.rs lines 34-47).
Returns the found index (if the comparator answered `Equal` at some probe)
together with the ordered list of indices passed to `compare_f`.
The first argument is structural fuel, initialised to the starting `s`. -/
def bsearchLoop (compare_f : Nat → Ordering) : Nat → Nat → Nat → Option Nat × List Nat
  | 0, _, _ => (none, [])
  | fuel + 1, left, s =>
    if 0 < s then
      let idx := left + s / 2
      match compare_f idx with
      | Ordering.eq => (some idx, [idx])
      | Ordering.gt =>
        let r := bsearchLoop compare_f fuel (idx + 1) ((s - 1) / 2)
        (r.1, idx :: r.2)
      | Ordering.lt =>
        let r := bsearchLoop compare_f fuel left (s / 2)
        (r.1, idx :: r.2)
    else (none, [])

/-- Rust `bsearch` (src/sort.rs lines 25-49): the loop's found index, or
`not_found_value` when the loop exhausts. -/
def bsearch (compare_f : Nat → Ordering) (data_length not_found_value : Nat) : Nat :=
  match (bsearchLoop compare_f data_length 0 data_length).1 with
  | some idx => idx
  | none => not_found_value

/-- The ordered list of indices Rust `bsearch` passes to `compare_f`. -/
def bsearchProbes (compare_f : Nat → Ordering) (data_length : Nat) : List Nat :=
  (bsearchLoop compare_f data_length 0 data_length).2

/-- The `while (s > 0) & !exact_value_found` loop of Rust `aprox_bsearch`
(src/sort.rs lines 125-141).  Returns `(exact_value_found, idx, probes)`
where `idx` is the Rust variable `idx` at loop exit (the last probed index,
or its initial value `idx0 = 0` when the loop body never ran) and `probes`
is the ordered list of indices passed to `compare_f` inside the loop. -/
def aproxLoop (compare_f : Nat → Ordering) : Nat → Nat → Nat → Nat → Bool × Nat × List Nat
  | 0, _, _, idx => (false, idx, [])
  | fuel + 1, left, s, idx =>
    if 0 < s then
      let idx2 := left + s / 2
      match compare_f idx2 with
      | Ordering.eq => (true, idx2, [idx2])
      | Ordering.gt =>
        let r := aproxLoop compare_f fuel (idx2 + 1) ((s - 1) / 2) idx2
        (r.1, r.2.1, idx2 :: r.2.2)
      | Ordering.lt =>
        let r := aproxLoop compare_f fuel left (s / 2) idx2
        (r.1, r.2.1, idx2 :: r.2.2)
    else (false, idx, [])

/-- Rust `aprox_bsearch` (src/sort.rs lines 117-157): run the probe loop;
on an exact match return `ExactMatchIndex`; on exhaustion either report
`OutsideIndex` (last probed index `≥ data_length`) or re-compare the key
against the last probed index to resolve the insertion point. -/
def aprox_bsearch (compare_f : Nat → Ordering) (data_length : Nat) :
    AproxBinarySearchResult × Nat :=
  let r := aproxLoop compare_f data_length 0 data_length 0
  if r.1 then (AproxBinarySearchResult.ExactMatchIndex, r.2.1)
  else if data_length ≤ r.2.1 then (AproxBinarySearchResult.OutsideIndex, r.2.1)
  else
    match compare_f r.2.1 with
    | Ordering.lt => (AproxBinarySearchResult.AproxMatch, r.2.1)
    | Ordering.eq => (AproxBinarySearchResult.ExactMatchIndex, r.2.1)
    | Ordering.gt => (AproxBinarySearchResult.AproxMatch, r.2.1 + 1)

/-- The ordered list of indices Rust `aprox_bsearch` passes to `compare_f`
(loop probes, plus the final re-comparison when it happens). -/
def aproxProbes (compare_f : Nat → Ordering) (data_length : Nat) : List Nat :=
  let r := aproxLoop compare_f data_length 0 data_length 0
  if r.1 then r.2.2
  else if data_length ≤ r.2.1 then r.2.2
  else r.2.2 ++ [r.2.1]

/-- The shift loop of Rust `sorted_array_insert` (src/sort.rs lines 268-280):
starting at `target_index` with `count` iterations remaining, emit the
`(src, dst) = (target_index, target_index + 1)` pairs passed to `copy_f`,
in call order.  The Rust loop decrements `target_index` only when the
decremented `count` is still positive; the emitted calls are identical. -/
def shiftLoop : Nat → Nat → List (Nat × Nat)
  | _, 0 => []
  | target_index, count + 1 =>
    (target_index, target_index + 1) :: shiftLoop (target_index - 1) count

/-- Rust `sorted_array_insert` (src/sort.rs lines 242-297).  Returns the
result triple together with the ordered list of `(src, dst)` pairs passed
to `copy_f` (empty except in the capacity-allowing `AproxMatch` branch). -/
def sorted_array_insert (compare_f : Nat → Ordering)
    (data_original_length data_capacity not_allocated_value : Nat) :
    SortedArrayAllocResult × Nat × Nat × List (Nat × Nat) :=
  match aprox_bsearch compare_f data_original_length with
  | (AproxBinarySearchResult.ExactMatchIndex, possible_index) =>
    (SortedArrayAllocResult.Ok, possible_index, 0, [])
  | (AproxBinarySearchResult.AproxMatch, possible_index) =>
    if data_original_length + 1 ≤ data_capacity then
      let count := data_original_length - possible_index
      let calls := if 0 < count then shiftLoop (data_original_length - 1) count else []
      (SortedArrayAllocResult.Ok, possible_index, 1, calls)
    else
      (SortedArrayAllocResult.ArrayCapacityExceeded, not_allocated_value, 0, [])
  | (AproxBinarySearchResult.OutsideIndex, possible_index) =>
    if data_original_length + 1 ≤ data_capacity then
      (SortedArrayAllocResult.Ok, possible_index, 1, [])
    else
      (SortedArrayAllocResult.ArrayCapacityExceeded, not_allocated_value, 0, [])

/-- Effect of one `copy_f(ptr, src, dst)` call (the documented element-move
capability: it copies the element at `src` over the element at `dst`). -/
def applyCopy (arr : Nat → α) (c : Nat × Nat) : Nat → α :=
  fun j => if j = c.2 then arr c.1 else arr j

/-- Effect of a sequence of `copy_f` calls, applied in call order. -/
def applyCopies (arr : Nat → α) (cs : List (Nat × Nat)) : Nat → α :=
  cs.foldl applyCopy arr

/-- The caller's documented post-insert obligation
(`test_array[possible_index] = new_value` in the src/sort.rs examples). -/
def writeAt (arr : Nat → α) (i : Nat) (v : α) : Nat → α :=
  fun j => if j = i then v else arr j

/-- The comparator a caller builds from a key and a buffer, as in the
`u8_cmp` test helper of src/sort.rs: compare the key against the element
stored at the probed index. -/
def cmpAt [LinearOrder α] (key : α) (arr : Nat → α) : Nat → Ordering :=
  fun i => compare key (arr i)

/-- The buffer's first `len` elements are sorted ascending. -/
def SortedOn [LinearOrder α] (arr : Nat → α) (len : Nat) : Prop :=
  ∀ i j, i < j → j < len → arr i ≤ arr j

/-- `i` is a valid insertion point for `key` in the first `len` elements:
everything before `i` is strictly below the key and everything from `i` on
is strictly above it. -/
def InsPoint [LinearOrder α] (key : α) (arr : Nat → α) (len i : Nat) : Prop :=
  i ≤ len ∧ (∀ j, j < i → arr j < key) ∧ (∀ j, i ≤ j → j < len → key < arr j)

/-- What holds about the Rust variable `idx` when the `aprox_bsearch` loop
exits without an exact match: an out-of-range `idx` only happens on the
empty buffer, and an in-range `idx` pins the insertion point on whichever
side the re-comparison selects. -/
def ExitP [LinearOrder α] (key : α) (arr : Nat → α) (len idx : Nat) : Prop :=
  (len ≤ idx → len = 0 ∧ idx = 0)
  ∧ (idx < len →
      (key < arr idx → InsPoint key arr len idx)
      ∧ (arr idx < key → InsPoint key arr len (idx + 1)))

example : bsearch (cmpAt (5 : Nat) (fun j => 2 * j)) 4 99 = 99 := by decide
example : bsearch (cmpAt (4 : Nat) (fun j => 2 * j)) 4 99 = 2 := by decide
example : aprox_bsearch (cmpAt (3 : Nat) (fun j => 2 * j)) 3 =
    (AproxBinarySearchResult.AproxMatch, 2) := by decide
example : aprox_bsearch (cmpAt (5 : Nat) (fun j => j)) 3 =
    (AproxBinarySearchResult.AproxMatch, 3) := by decide
example : aprox_bsearch (cmpAt (5 : Nat) (fun j => j)) 0 =
    (AproxBinarySearchResult.OutsideIndex, 0) := by decide
example : sorted_array_insert (cmpAt (0x15 : Nat) (fun j => [0x10, 0x20].getD j 0)) 2 3 999 =
    (SortedArrayAllocResult.Ok, 1, 1, [(1, 2)]) := by decide
example : sorted_array_insert (cmpAt (0x25 : Nat) (fun j => [0x10, 0x20].getD j 0)) 2 3 999 =
    (SortedArrayAllocResult.Ok, 2, 1, []) := by decide
example : sorted_array_insert (cmpAt (0x15 : Nat) (fun j => [0x10, 0x20].getD j 0)) 2 2 999 =
    (SortedArrayAllocResult.ArrayCapacityExceeded, 999, 0, []) := by decide
example : sorted_array_insert (cmpAt (0x10 : Nat) (fun j => [0x10, 0x20].getD j 0)) 2 3 999 =
    (SortedArrayAllocResult.Ok, 0, 0, []) := by decide

/-- The loop exits immediately when the window is empty, whatever the fuel. -/
theorem bsearchLoop_zero (cmp : Nat → Ordering) (fuel left : Nat) :
    bsearchLoop cmp fuel left 0 = (none, []) := by
  cases fuel <;> simp [bsearchLoop]

/-- The loop exits immediately when the window is empty, whatever the fuel. -/
theorem aproxLoop_zero (cmp : Nat → Ordering) (fuel left idx : Nat) :
    aproxLoop cmp fuel left 0 idx = (false, idx, []) := by
  cases fuel <;> simp [aproxLoop]

/-- Any fuel at least the window size gives the same run: the fuel in
`bsearch` (initialised to `data_length`, the starting `s`) never runs out,
so `bsearchLoop` is an exact rendering of the Rust `while` loop. -/
theorem bsearchLoop_fuel (cmp : Nat → Ordering) :
    ∀ f1 f2 left s, s ≤ f1 → s ≤ f2 →
      bsearchLoop cmp f1 left s = bsearchLoop cmp f2 left s := by
  intro f1
  induction f1 with
  | zero =>
    intro f2 left s h1 _
    have hs : s = 0 := by omega
    subst hs
    rw [bsearchLoop_zero, bsearchLoop_zero]
  | succ f1 ih =>
    intro f2 left s h1 h2
    by_cases h0 : 0 < s
    · cases f2 with
      | zero => omega
      | succ f2 =>
        simp only [bsearchLoop, if_pos h0]
        rcases hc : cmp (left + s / 2) with _ | _ | _
        · rw [ih f2 left (s / 2) (by omega) (by omega)]
        · rfl
        · rw [ih f2 (left + s / 2 + 1) ((s - 1) / 2) (by omega) (by omega)]
    · have hs : s = 0 := by omega
      subst hs
      rw [bsearchLoop_zero, bsearchLoop_zero]

/-- Any fuel at least the window size gives the same run: the fuel in
`aprox_bsearch` (initialised to `data_length`) never runs out, so
`aproxLoop` is an exact rendering of the Rust `while` loop. -/
theorem aproxLoop_fuel (cmp : Nat → Ordering) :
    ∀ f1 f2 left s idx0, s ≤ f1 → s ≤ f2 →
      aproxLoop cmp f1 left s idx0 = aproxLoop cmp f2 left s idx0 := by
  intro f1
  induction f1 with
  | zero =>
    intro f2 left s idx0 h1 _
    have hs : s = 0 := by omega
    subst hs
    rw [aproxLoop_zero, aproxLoop_zero]
  | succ f1 ih =>
    intro f2 left s idx0 h1 h2
    by_cases h0 : 0 < s
    · cases f2 with
      | zero => omega
      | succ f2 =>
        simp only [aproxLoop, if_pos h0]
        rcases hc : cmp (left + s / 2) with _ | _ | _
        · rw [ih f2 left (s / 2) (left + s / 2) (by omega) (by omega)]
        · rfl
        · rw [ih f2 (left + s / 2 + 1) ((s - 1) / 2) (left + s / 2) (by omega) (by omega)]
    · have hs : s = 0 := by omega
      subst hs
      rw [aproxLoop_zero, aproxLoop_zero]

/-- Every index the `bsearch` loop passes to the comparator is below
`left + s`, hence below the logical length: the probe `left + s / 2` is
inside the current window and the window stays inside `[0, len)`. -/
theorem bsearchLoop_probes_lt (cmp : Nat → Ordering) (len : Nat) :
    ∀ fuel left s, left + s ≤ len →
      ∀ p, p ∈ (bsearchLoop cmp fuel left s).2 → p < len := by
  intro fuel
  induction fuel with
  | zero =>
    intro left s _ p hp
    simp [bsearchLoop] at hp
  | succ fuel ih =>
    intro left s hls p hp
    by_cases h0 : 0 < s
    · simp only [bsearchLoop, if_pos h0] at hp
      rcases hc : cmp (left + s / 2) with _ | _ | _ <;> rw [hc] at hp <;> simp at hp
      · rcases hp with hp | hp
        · omega
        · exact ih left (s / 2) (by omega) p hp
      · omega
      · rcases hp with hp | hp
        · omega
        · exact ih (left + s / 2 + 1) ((s - 1) / 2) (by omega) p hp
    · have hs : s = 0 := by omega
      subst hs
      rw [bsearchLoop_zero] at hp
      simp at hp

/-- Every index the `aprox_bsearch` loop passes to the comparator is below
the logical length. -/
theorem aproxLoop_probes_lt (cmp : Nat → Ordering) (len : Nat) :
    ∀ fuel left s idx0, left + s ≤ len →
      ∀ p, p ∈ (aproxLoop cmp fuel left s idx0).2.2 → p < len := by
  intro fuel
  induction fuel with
  | zero =>
    intro left s idx0 _ p hp
    simp [aproxLoop] at hp
  | succ fuel ih =>
    intro left s idx0 hls p hp
    by_cases h0 : 0 < s
    · simp only [aproxLoop, if_pos h0] at hp
      rcases hc : cmp (left + s / 2) with _ | _ | _ <;> rw [hc] at hp <;> simp at hp
      · rcases hp with hp | hp
        · omega
        · exact ih left (s / 2) (left + s / 2) (by omega) p hp
      · omega
      · rcases hp with hp | hp
        · omega
        · exact ih (left + s / 2 + 1) ((s - 1) / 2) (left + s / 2) (by omega) p hp
    · have hs : s = 0 := by omega
      subst hs
      rw [aproxLoop_zero] at hp
      simp at hp

/-- With a positive window and enough fuel, the `idx` the `aprox_bsearch`
loop exits with (found or not) is below the logical length: the loop always
probes at least once and every probe is in range. -/
theorem aproxLoop_idx_lt (cmp : Nat → Ordering) (len : Nat) :
    ∀ fuel left s idx0, 0 < s → s ≤ fuel → left + s ≤ len →
      (aproxLoop cmp fuel left s idx0).2.1 < len := by
  intro fuel
  induction fuel with
  | zero => intro left s idx0 h0 hsf _; omega
  | succ fuel ih =>
    intro left s idx0 h0 hsf hls
    simp only [aproxLoop, if_pos h0]
    set idx2 := left + s / 2 with hidx2
    rcases hc : cmp idx2 with _ | _ | _
    · show (aproxLoop cmp fuel left (s / 2) idx2).2.1 < len
      rcases Nat.eq_zero_or_pos (s / 2) with h2 | h2
      · rw [h2, aproxLoop_zero]
        show idx2 < len
        omega
      · exact ih left (s / 2) idx2 h2 (by omega) (by omega)
    · show idx2 < len
      omega
    · show (aproxLoop cmp fuel (idx2 + 1) ((s - 1) / 2) idx2).2.1 < len
      rcases Nat.eq_zero_or_pos ((s - 1) / 2) with h2 | h2
      · rw [h2, aproxLoop_zero]
        show idx2 < len
        omega
      · exact ih (idx2 + 1) ((s - 1) / 2) idx2 h2 (by omega) (by omega)

/-- A found index of the `bsearch` loop is below the logical length. -/
theorem bsearchLoop_found_lt (cmp : Nat → Ordering) (len : Nat) :
    ∀ fuel left s i, left + s ≤ len →
      (bsearchLoop cmp fuel left s).1 = some i → i < len := by
  intro fuel
  induction fuel with
  | zero => intro left s i _ h; simp [bsearchLoop] at h
  | succ fuel ih =>
    intro left s i hls h
    by_cases h0 : 0 < s
    · simp only [bsearchLoop, if_pos h0] at h
      rcases hc : cmp (left + s / 2) with _ | _ | _ <;> rw [hc] at h <;> simp at h
      · exact ih left (s / 2) i (by omega) h
      · omega
      · exact ih (left + s / 2 + 1) ((s - 1) / 2) i (by omega) h
    · have hs : s = 0 := by omega
      subst hs
      rw [bsearchLoop_zero] at h
      simp at h

/-- The two probe loops branch identically, so `bsearch`'s loop finds an
index exactly when `aprox_bsearch`'s loop sets `exact_value_found`, and
then the indices coincide. -/
theorem loops_agree (cmp : Nat → Ordering) :
    ∀ fuel left s idx0,
      (bsearchLoop cmp fuel left s).1 =
        if (aproxLoop cmp fuel left s idx0).1 = true then
          some ((aproxLoop cmp fuel left s idx0).2.1)
        else none := by
  intro fuel
  induction fuel with
  | zero => intro left s idx0; simp [bsearchLoop, aproxLoop]
  | succ fuel ih =>
    intro left s idx0
    by_cases h0 : 0 < s
    · simp only [bsearchLoop, aproxLoop, if_pos h0]
      rcases hc : cmp (left + s / 2) with _ | _ | _
      · exact ih left (s / 2) (left + s / 2)
      · simp
      · exact ih (left + s / 2 + 1) ((s - 1) / 2) (left + s / 2)
    · have hs : s = 0 := by omega
      subst hs
      rw [bsearchLoop_zero, aproxLoop_zero]
      simp

/-- The comparator is a pure function, so when the loop exhausts, the final
re-comparison at the last probed index repeats an answer already given in
the loop, which was not `Equal` (an `Equal` would have exited the loop). -/
theorem aproxLoop_exhaust_ne (cmp : Nat → Ordering) :
    ∀ fuel left s idx0, 0 < s → s ≤ fuel →
      (aproxLoop cmp fuel left s idx0).1 = false →
      ¬ cmp ((aproxLoop cmp fuel left s idx0).2.1) = Ordering.eq := by
  intro fuel
  induction fuel with
  | zero => intro left s idx0 h0 hsf; omega
  | succ fuel ih =>
    intro left s idx0 h0 hsf
    simp only [aproxLoop, if_pos h0]
    set idx2 := left + s / 2 with hidx2
    rcases hc : cmp idx2 with _ | _ | _
    · rcases Nat.eq_zero_or_pos (s / 2) with h2 | h2
      · rw [h2, aproxLoop_zero]
        intro _
        simp [hc]
      · intro hf
        exact ih left (s / 2) idx2 h2 (by omega) hf
    · intro hf
      simp at hf
    · rcases Nat.eq_zero_or_pos ((s - 1) / 2) with h2 | h2
      · rw [h2, aproxLoop_zero]
        intro _
        simp [hc]
      · intro hf
        exact ih (idx2 + 1) ((s - 1) / 2) idx2 h2 (by omega) hf

/-- The comparator answers `Less` exactly when the key is below the probed
element. -/
theorem cmpAt_lt [LinearOrder α] {key : α} {arr : Nat → α} {i : Nat} :
    cmpAt key arr i = Ordering.lt ↔ key < arr i := compare_lt_iff_lt

/-- The comparator answers `Equal` exactly when the key equals the probed
element. -/
theorem cmpAt_eq [LinearOrder α] {key : α} {arr : Nat → α} {i : Nat} :
    cmpAt key arr i = Ordering.eq ↔ key = arr i := compare_eq_iff_eq

/-- The comparator answers `Greater` exactly when the key is above the
probed element. -/
theorem cmpAt_gt [LinearOrder α] {key : α} {arr : Nat → α} {i : Nat} :
    cmpAt key arr i = Ordering.gt ↔ arr i < key := compare_gt_iff_gt

/-- Invariant proof for the `bsearch` loop on a sorted buffer: with every
element before `left` strictly below the key and every element from
`left + s` on strictly above it, a found index holds the key, and an
exhausted loop certifies the key absent from the whole buffer. -/
theorem bsearchLoop_sound [LinearOrder α] (key : α) (arr : Nat → α) (len : Nat)
    (hs : SortedOn arr len) :
    ∀ fuel left s, s ≤ fuel → left + s ≤ len →
      (∀ j, j < left → arr j < key) →
      (∀ j, left + s ≤ j → j < len → key < arr j) →
      (∀ i, (bsearchLoop (cmpAt key arr) fuel left s).1 = some i → i < len ∧ arr i = key)
        ∧ ((bsearchLoop (cmpAt key arr) fuel left s).1 = none →
            ∀ j, j < len → arr j ≠ key) := by
  intro fuel
  induction fuel with
  | zero =>
    intro left s hsf hls hlo hhi
    have hs0 : s = 0 := by omega
    subst hs0
    rw [bsearchLoop_zero]
    constructor
    · intro i hi
      exact Option.noConfusion hi
    · intro _ j hj hne
      rcases Nat.lt_or_ge j left with h | h
      · exact ne_of_lt (hlo j h) hne
      · exact ne_of_gt (hhi j (by omega) hj) hne
  | succ fuel ih =>
    intro left s hsf hls hlo hhi
    by_cases h0 : 0 < s
    · simp only [bsearchLoop, if_pos h0]
      set idx2 := left + s / 2 with hidx2
      have hfl : idx2 < len := by omega
      rcases hc : cmpAt key arr idx2 with _ | _ | _
      · have hklt : key < arr idx2 := cmpAt_lt.mp hc
        have hhi2 : ∀ j, left + s / 2 ≤ j → j < len → key < arr j := by
          intro j hj hjl
          have hij : idx2 ≤ j := by omega
          rcases eq_or_lt_of_le hij with he | hlt2
          · rw [← he]; exact hklt
          · exact hklt.trans_le (hs idx2 j hlt2 hjl)
        exact ih left (s / 2) (by omega) (by omega) hlo hhi2
      · have hkeq : key = arr idx2 := cmpAt_eq.mp hc
        constructor
        · intro i hi
          have h2 : idx2 = i := Option.some.inj hi
          rw [← h2]
          exact ⟨hfl, hkeq.symm⟩
        · intro hnone
          exact Option.noConfusion hnone
      · have hkgt : arr idx2 < key := cmpAt_gt.mp hc
        have hlo2 : ∀ j, j < idx2 + 1 → arr j < key := by
          intro j hj
          have hj2 : j ≤ idx2 := by omega
          rcases eq_or_lt_of_le hj2 with he | hlt2
          · rw [he]; exact hkgt
          · exact (hs j idx2 hlt2 hfl).trans_lt hkgt
        have hhi2 : ∀ j, idx2 + 1 + (s - 1) / 2 ≤ j → j < len → key < arr j := by
          intro j hj hjl
          exact hhi j (by omega) hjl
        exact ih (idx2 + 1) ((s - 1) / 2) (by omega) (by omega) hlo2 hhi2
    · have hs0 : s = 0 := by omega
      subst hs0
      rw [bsearchLoop_zero]
      constructor
      · intro i hi
        exact Option.noConfusion hi
      · intro _ j hj hne
        rcases Nat.lt_or_ge j left with h | h
        · exact ne_of_lt (hlo j h) hne
        · exact ne_of_gt (hhi j (by omega) hj) hne

/-- Invariant proof for the `aprox_bsearch` loop on a sorted buffer.  The
extra hypothesis covers the degenerate entry with an empty window, where
the loop returns its incoming `idx` untouched; every recursive entry with
an empty window receives the previous probe as `idx`, for which `ExitP`
holds.  A found exit holds the key; an exhausted exit satisfies `ExitP`. -/
theorem aproxLoop_sound [LinearOrder α] (key : α) (arr : Nat → α) (len : Nat)
    (hs : SortedOn arr len) :
    ∀ fuel left s idx0, s ≤ fuel → left + s ≤ len →
      (∀ j, j < left → arr j < key) →
      (∀ j, left + s ≤ j → j < len → key < arr j) →
      (s = 0 → ExitP key arr len idx0) →
      ((aproxLoop (cmpAt key arr) fuel left s idx0).1 = true →
          (aproxLoop (cmpAt key arr) fuel left s idx0).2.1 < len ∧
          arr ((aproxLoop (cmpAt key arr) fuel left s idx0).2.1) = key)
        ∧ ((aproxLoop (cmpAt key arr) fuel left s idx0).1 = false →
            ExitP key arr len ((aproxLoop (cmpAt key arr) fuel left s idx0).2.1)) := by
  intro fuel
  induction fuel with
  | zero =>
    intro left s idx0 hsf hls hlo hhi hexit
    have hs0 : s = 0 := by omega
    subst hs0
    rw [aproxLoop_zero]
    exact ⟨fun h => Bool.noConfusion h, fun _ => hexit rfl⟩
  | succ fuel ih =>
    intro left s idx0 hsf hls hlo hhi hexit
    by_cases h0 : 0 < s
    · simp only [aproxLoop, if_pos h0]
      set idx2 := left + s / 2 with hidx2
      have hfl : idx2 < len := by omega
      rcases hc : cmpAt key arr idx2 with _ | _ | _
      · have hklt : key < arr idx2 := cmpAt_lt.mp hc
        have hhi2 : ∀ j, left + s / 2 ≤ j → j < len → key < arr j := by
          intro j hj hjl
          have hij : idx2 ≤ j := by omega
          rcases eq_or_lt_of_le hij with he | hlt2
          · rw [← he]; exact hklt
          · exact hklt.trans_le (hs idx2 j hlt2 hjl)
        have hexit2 : s / 2 = 0 → ExitP key arr len idx2 := by
          intro h2
          constructor
          · intro hle; omega
          · intro _
            constructor
            · intro _
              refine ⟨by omega, ?_, ?_⟩
              · intro j hj
                exact hlo j (by omega)
              · intro j hj hjl
                exact hhi2 j (by omega) hjl
            · intro hgt
              exact absurd hgt (not_lt.mpr hklt.le)
        exact ih left (s / 2) idx2 (by omega) (by omega) hlo hhi2 hexit2
      · have hkeq : key = arr idx2 := cmpAt_eq.mp hc
        constructor
        · intro _
          exact ⟨hfl, hkeq.symm⟩
        · intro hfalse
          exact Bool.noConfusion hfalse
      · have hkgt : arr idx2 < key := cmpAt_gt.mp hc
        have hlo2 : ∀ j, j < idx2 + 1 → arr j < key := by
          intro j hj
          have hj2 : j ≤ idx2 := by omega
          rcases eq_or_lt_of_le hj2 with he | hlt2
          · rw [he]; exact hkgt
          · exact (hs j idx2 hlt2 hfl).trans_lt hkgt
        have hhi2 : ∀ j, idx2 + 1 + (s - 1) / 2 ≤ j → j < len → key < arr j := by
          intro j hj hjl
          exact hhi j (by omega) hjl
        have hexit2 : (s - 1) / 2 = 0 → ExitP key arr len idx2 := by
          intro h2
          constructor
          · intro hle; omega
          · intro _
            constructor
            · intro hlt'
              exact absurd hlt' (not_lt.mpr hkgt.le)
            · intro _
              refine ⟨by omega, hlo2, ?_⟩
              intro j hj hjl
              exact hhi j (by omega) hjl
        exact ih (idx2 + 1) ((s - 1) / 2) idx2 (by omega) (by omega) hlo2 hhi2 hexit2
    · have hs0 : s = 0 := by omega
      subst hs0
      rw [aproxLoop_zero]
      exact ⟨fun h => Bool.noConfusion h, fun _ => hexit rfl⟩

/-- Unfolding of `aprox_bsearch` in terms of its loop. -/
theorem aprox_bsearch_eq (cmp : Nat → Ordering) (len : Nat) :
    aprox_bsearch cmp len =
      if (aproxLoop cmp len 0 len 0).1 then
        (AproxBinarySearchResult.ExactMatchIndex, (aproxLoop cmp len 0 len 0).2.1)
      else if len ≤ (aproxLoop cmp len 0 len 0).2.1 then
        (AproxBinarySearchResult.OutsideIndex, (aproxLoop cmp len 0 len 0).2.1)
      else
        match cmp ((aproxLoop cmp len 0 len 0).2.1) with
        | Ordering.lt => (AproxBinarySearchResult.AproxMatch, (aproxLoop cmp len 0 len 0).2.1)
        | Ordering.eq =>
          (AproxBinarySearchResult.ExactMatchIndex, (aproxLoop cmp len 0 len 0).2.1)
        | Ordering.gt =>
          (AproxBinarySearchResult.AproxMatch, (aproxLoop cmp len 0 len 0).2.1 + 1) := rfl

/-- The three post-loop paths of `aprox_bsearch`, each conditioned on what
the loop returned. -/
theorem aprox_bsearch_of_loop (cmp : Nat → Ordering) (len ridx : Nat) (rpro : List Nat) :
    (aproxLoop cmp len 0 len 0 = (true, ridx, rpro) →
      aprox_bsearch cmp len = (AproxBinarySearchResult.ExactMatchIndex, ridx))
    ∧ (aproxLoop cmp len 0 len 0 = (false, ridx, rpro) → len ≤ ridx →
      aprox_bsearch cmp len = (AproxBinarySearchResult.OutsideIndex, ridx))
    ∧ (aproxLoop cmp len 0 len 0 = (false, ridx, rpro) → ridx < len →
      aprox_bsearch cmp len =
        match cmp ridx with
        | Ordering.lt => (AproxBinarySearchResult.AproxMatch, ridx)
        | Ordering.eq => (AproxBinarySearchResult.ExactMatchIndex, ridx)
        | Ordering.gt => (AproxBinarySearchResult.AproxMatch, ridx + 1)) := by
  refine ⟨?_, ?_, ?_⟩
  · intro h
    rw [aprox_bsearch_eq, h]
    rfl
  · intro h hle
    rw [aprox_bsearch_eq, h]
    simp [hle]
  · intro h hlt
    rw [aprox_bsearch_eq, h]
    simp [Nat.not_le.mpr hlt]

/-- Shape facts about `aprox_bsearch` that hold for every comparator:
`OutsideIndex` happens exactly on the empty buffer (and then the index is
0), and an `AproxMatch` index never exceeds the logical length. -/
theorem aprox_bsearch_shape (cmp : Nat → Ordering) (len : Nat) :
    (len = 0 → aprox_bsearch cmp len = (AproxBinarySearchResult.OutsideIndex, 0))
    ∧ (∀ i, aprox_bsearch cmp len = (AproxBinarySearchResult.OutsideIndex, i) →
        len = 0 ∧ i = 0)
    ∧ (∀ i, aprox_bsearch cmp len = (AproxBinarySearchResult.AproxMatch, i) → i ≤ len) := by
  refine ⟨?_, ?_, ?_⟩
  · intro h0
    subst h0
    rfl
  · intro i h
    rcases Nat.eq_zero_or_pos len with h0 | h0
    · subst h0
      have he : aprox_bsearch cmp 0 = (AproxBinarySearchResult.OutsideIndex, 0) := rfl
      rw [he] at h
      obtain ⟨-, h2⟩ := Prod.mk.inj h
      exact ⟨rfl, h2.symm⟩
    · exfalso
      rcases hr : aproxLoop cmp len 0 len 0 with ⟨found, ridx, rpro⟩
      have hil := aproxLoop_idx_lt cmp len len 0 len 0 h0 (le_refl len) (by omega)
      rw [hr] at hil
      cases found
      · have he := (aprox_bsearch_of_loop cmp len ridx rpro).2.2 hr hil
        rw [he] at h
        rcases hc : cmp ridx with _ | _ | _ <;> rw [hc] at h <;> simp at h
      · have he := (aprox_bsearch_of_loop cmp len ridx rpro).1 hr
        rw [he] at h
        simp at h
  · intro i h
    rcases hr : aproxLoop cmp len 0 len 0 with ⟨found, ridx, rpro⟩
    cases found
    · by_cases hle : len ≤ ridx
      · have he := (aprox_bsearch_of_loop cmp len ridx rpro).2.1 hr hle
        rw [he] at h
        simp at h
      · have hrl : ridx < len := by omega
        have he := (aprox_bsearch_of_loop cmp len ridx rpro).2.2 hr hrl
        rw [he] at h
        rcases hc : cmp ridx with _ | _ | _ <;> rw [hc] at h <;> simp at h
        · omega
        · omega
    · have he := (aprox_bsearch_of_loop cmp len ridx rpro).1 hr
      rw [he] at h
      simp at h

/-- Full characterisation of `aprox_bsearch` on a sorted buffer: an
`ExactMatchIndex` outcome points at the key, an `AproxMatch` outcome is a
valid insertion point, and an `OutsideIndex` outcome only happens on the
empty buffer. -/
theorem aprox_bsearch_sound [LinearOrder α] (key : α) (arr : Nat → α) (len : Nat)
    (hs : SortedOn arr len) :
    (∀ i, aprox_bsearch (cmpAt key arr) len = (AproxBinarySearchResult.ExactMatchIndex, i) →
        i < len ∧ arr i = key)
    ∧ (∀ i, aprox_bsearch (cmpAt key arr) len = (AproxBinarySearchResult.AproxMatch, i) →
        InsPoint key arr len i)
    ∧ (∀ i, aprox_bsearch (cmpAt key arr) len = (AproxBinarySearchResult.OutsideIndex, i) →
        len = 0 ∧ i = 0) := by
  have hlo0 : ∀ j, j < 0 → arr j < key := fun j hj => absurd hj (Nat.not_lt_zero j)
  have hhi0 : ∀ j, 0 + len ≤ j → j < len → key < arr j := by
    intro j hj hjl
    exfalso
    omega
  have hexit0 : len = 0 → ExitP key arr len 0 := by
    intro h0
    constructor
    · intro _
      exact ⟨h0, rfl⟩
    · intro hlt
      exfalso
      omega
  have hmain := aproxLoop_sound key arr len hs len 0 len 0 (le_refl len) (by omega)
    hlo0 hhi0 hexit0
  rcases hr : aproxLoop (cmpAt key arr) len 0 len 0 with ⟨found, ridx, rpro⟩
  rw [hr] at hmain
  obtain ⟨hT, hF⟩ := hmain
  cases found
  · have hexitp : ExitP key arr len ridx := hF rfl
    by_cases hle : len ≤ ridx
    · obtain ⟨hlen0, hridx0⟩ := hexitp.1 hle
      have he := (aprox_bsearch_of_loop (cmpAt key arr) len ridx rpro).2.1 hr hle
      refine ⟨?_, ?_, ?_⟩ <;> intro i h <;> rw [he] at h <;> simp at h
      omega
    · have hrl : ridx < len := by omega
      have hexitp2 := hexitp.2 hrl
      have he := (aprox_bsearch_of_loop (cmpAt key arr) len ridx rpro).2.2 hr hrl
      refine ⟨?_, ?_, ?_⟩
      · intro i h
        rw [he] at h
        rcases hc : cmpAt key arr ridx with _ | _ | _ <;> rw [hc] at h <;> simp at h
        rw [← h]
        exact ⟨hrl, (cmpAt_eq.mp hc).symm⟩
      · intro i h
        rw [he] at h
        rcases hc : cmpAt key arr ridx with _ | _ | _ <;> rw [hc] at h <;> simp at h
        · rw [← h]
          exact hexitp2.1 (cmpAt_lt.mp hc)
        · rw [← h]
          exact hexitp2.2 (cmpAt_gt.mp hc)
      · intro i h
        rw [he] at h
        rcases hc : cmpAt key arr ridx with _ | _ | _ <;> rw [hc] at h <;> simp at h
  · obtain ⟨hT1, hT2⟩ := hT rfl
    have he := (aprox_bsearch_of_loop (cmpAt key arr) len ridx rpro).1 hr
    refine ⟨?_, ?_, ?_⟩ <;> intro i h <;> rw [he] at h <;> simp at h
    rw [← h]
    exact ⟨hT1, hT2⟩

/-- One copy call, applied. -/
theorem applyCopy_apply (arr : Nat → α) (a b j : Nat) :
    applyCopy arr (a, b) j = if j = b then arr a else arr j := rfl

/-- The shift loop's calls, in order: sources run from `target` downward,
each copied one slot right. -/
theorem shiftLoop_eq_map : ∀ count target,
    shiftLoop target count =
      (List.range count).map (fun k => (target - k, target - k + 1)) := by
  intro count
  induction count with
  | zero =>
    intro target
    rfl
  | succ count ih =>
    intro target
    have hfun : ((fun k => (target - k, target - k + 1)) ∘ Nat.succ : Nat → Nat × Nat) =
        (fun k => (target - 1 - k, target - 1 - k + 1)) := by
      funext k
      show (target - (k + 1), target - (k + 1) + 1) = (target - 1 - k, target - 1 - k + 1)
      congr 1 <;> omega
    rw [shiftLoop, ih (target - 1), List.range_succ_eq_map, List.map_cons, List.map_map, hfun]
    simp

/-- Pointwise effect of applying the shift loop's copies in call order:
positions in `(target + 1 - count, target + 1]` now hold their left
neighbour's element, everything else is untouched.  The tail-backward call
order is what makes this hold on aliased storage. -/
theorem applyCopies_shiftLoop :
    ∀ (count target : Nat) (arr : Nat → α), count ≤ target + 1 →
      ∀ j, applyCopies arr (shiftLoop target count) j =
        if target + 1 - count < j ∧ j ≤ target + 1 then arr (j - 1) else arr j := by
  intro count
  induction count with
  | zero =>
    intro target arr _ j
    rw [if_neg (by omega)]
    rfl
  | succ count ih =>
    intro target arr hct j
    have hstep : applyCopies arr (shiftLoop target (count + 1)) j =
        applyCopies (applyCopy arr (target, target + 1)) (shiftLoop (target - 1) count) j := rfl
    rw [hstep, ih (target - 1) (applyCopy arr (target, target + 1)) (by omega) j]
    rcases Nat.eq_zero_or_pos target with ht0 | ht0
    · subst ht0
      have hc0 : count = 0 := by omega
      subst hc0
      by_cases hj : j = 1
      · subst hj
        rw [if_neg (by omega), if_pos (by omega), applyCopy_apply, if_pos rfl]
      · rw [if_neg (by omega), if_neg (by omega), applyCopy_apply, if_neg hj]
    · by_cases h1 : target - 1 + 1 - count < j ∧ j ≤ target - 1 + 1
      · rw [if_pos h1, if_pos (by omega), applyCopy_apply, if_neg (by omega)]
      · rw [if_neg h1, applyCopy_apply]
        by_cases hj : j = target + 1
        · subst hj
          rw [if_pos rfl, if_pos (by omega)]
          exact congrArg arr (by omega)
        · rw [if_neg hj, if_neg (by omega)]

/-- Writing the key over an equal element leaves the buffer unchanged, so
it stays sorted. -/
theorem writeAt_self_sorted [LinearOrder α] (key : α) (arr : Nat → α) (len i : Nat)
    (hs : SortedOn arr len) (hk : arr i = key) :
    SortedOn (writeAt arr i key) len := by
  have hW : ∀ j, writeAt arr i key j = arr j := by
    intro j
    show (if j = i then key else arr j) = arr j
    by_cases hj : j = i
    · rw [if_pos hj, hj, hk]
    · rw [if_neg hj]
  intro a b hab hb
  rw [hW a, hW b]
  exact hs a b hab hb

/-- Shifting the tail `[i, len)` one slot right via the recorded copy calls
and then writing the key at a valid insertion point `i` yields a buffer of
`len + 1` elements that is still sorted ascending. -/
theorem insPoint_insert_sorted [LinearOrder α] (key : α) (arr : Nat → α) (len i : Nat)
    (hs : SortedOn arr len) (hp : InsPoint key arr len i) :
    SortedOn (writeAt (applyCopies arr (shiftLoop (len - 1) (len - i))) i key) (len + 1) := by
  obtain ⟨hi, hlo, hhi⟩ := hp
  rcases Nat.eq_zero_or_pos len with h0 | h0
  · subst h0
    intro a b hab hb
    exact absurd hab (by omega)
  · have hg : ∀ j, applyCopies arr (shiftLoop (len - 1) (len - i)) j =
        if i < j ∧ j ≤ len then arr (j - 1) else arr j := by
      intro j
      have h := applyCopies_shiftLoop (len - i) (len - 1) arr (by omega) j
      have e1 : len - 1 + 1 - (len - i) = i := by omega
      have e2 : len - 1 + 1 = len := by omega
      rw [e1, e2] at h
      exact h
    intro a b hab hb
    show (if a = i then key else applyCopies arr (shiftLoop (len - 1) (len - i)) a)
        ≤ (if b = i then key else applyCopies arr (shiftLoop (len - 1) (len - i)) b)
    rw [hg a, hg b]
    by_cases hbi : b = i
    · rw [if_pos hbi, if_neg (show ¬a = i by omega),
        if_neg (show ¬(i < a ∧ a ≤ len) by omega)]
      exact (hlo a (by omega)).le
    · rw [if_neg hbi]
      by_cases hai : a = i
      · rw [if_pos hai, if_pos (show i < b ∧ b ≤ len by omega)]
        exact (hhi (b - 1) (by omega) (by omega)).le
      · rw [if_neg hai]
        by_cases hbl : b < i
        · rw [if_neg (show ¬(i < a ∧ a ≤ len) by omega),
            if_neg (show ¬(i < b ∧ b ≤ len) by omega)]
          exact hs a b hab (by omega)
        · rw [if_pos (show i < b ∧ b ≤ len by omega)]
          by_cases hal : a < i
          · rw [if_neg (show ¬(i < a ∧ a ≤ len) by omega)]
            exact ((hlo a hal).trans (hhi (b - 1) (by omega) (by omega))).le
          · rw [if_pos (show i < a ∧ a ≤ len by omega)]
            exact hs (a - 1) (b - 1) (by omega) (by omega)

/-- `sorted_array_insert` on an `ExactMatchIndex` outcome: report the index,
add nothing, move nothing. -/
theorem sorted_array_insert_exact (cmp : Nat → Ordering) (len cap nfv i : Nat)
    (h : aprox_bsearch cmp len = (AproxBinarySearchResult.ExactMatchIndex, i)) :
    sorted_array_insert cmp len cap nfv = (SortedArrayAllocResult.Ok, i, 0, []) := by
  simp only [sorted_array_insert, h]

/-- `sorted_array_insert` on an `AproxMatch` outcome: capacity check, then
the shift loop over `count = len - i` elements. -/
theorem sorted_array_insert_aprox (cmp : Nat → Ordering) (len cap nfv i : Nat)
    (h : aprox_bsearch cmp len = (AproxBinarySearchResult.AproxMatch, i)) :
    sorted_array_insert cmp len cap nfv =
      if len + 1 ≤ cap then
        (SortedArrayAllocResult.Ok, i, 1,
          if 0 < len - i then shiftLoop (len - 1) (len - i) else [])
      else (SortedArrayAllocResult.ArrayCapacityExceeded, nfv, 0, []) := by
  simp only [sorted_array_insert, h]

/-- `sorted_array_insert` on an `OutsideIndex` outcome: capacity check, then
a pure append with no copy calls. -/
theorem sorted_array_insert_outside (cmp : Nat → Ordering) (len cap nfv i : Nat)
    (h : aprox_bsearch cmp len = (AproxBinarySearchResult.OutsideIndex, i)) :
    sorted_array_insert cmp len cap nfv =
      if len + 1 ≤ cap then (SortedArrayAllocResult.Ok, i, 1, [])
      else (SortedArrayAllocResult.ArrayCapacityExceeded, nfv, 0, []) := by
  simp only [sorted_array_insert, h]

/-- Claim C1: on a buffer sorted ascending under the comparator, the index
returned by `aprox_bsearch` is a valid insertion point: shifting `[i, len)`
one slot right (exactly the copy calls the shift loop would make — none for
an `OutsideIndex`, which only happens on the empty buffer) and writing the
key at `i` leaves a buffer of `len + 1` elements sorted ascending, and for
an `ExactMatchIndex` outcome overwriting in place at `i` leaves the `len`
elements sorted. -/
theorem claim1_roundtrip_sorted [LinearOrder α] (key : α) (arr : Nat → α) (len : Nat)
    (hs : SortedOn arr len) :
    (∀ i, aprox_bsearch (cmpAt key arr) len = (AproxBinarySearchResult.ExactMatchIndex, i) →
        SortedOn (writeAt arr i key) len)
    ∧ (∀ i, aprox_bsearch (cmpAt key arr) len = (AproxBinarySearchResult.AproxMatch, i) →
        SortedOn (writeAt (applyCopies arr (shiftLoop (len - 1) (len - i))) i key) (len + 1))
    ∧ (∀ i, aprox_bsearch (cmpAt key arr) len = (AproxBinarySearchResult.OutsideIndex, i) →
        SortedOn (writeAt arr i key) (len + 1)) := by
  obtain ⟨hE, hA, hO⟩ := aprox_bsearch_sound key arr len hs
  refine ⟨?_, ?_, ?_⟩
  · intro i h
    obtain ⟨h1, h2⟩ := hE i h
    exact writeAt_self_sorted key arr len i hs h2
  · intro i h
    exact insPoint_insert_sorted key arr len i hs (hA i h)
  · intro i h
    obtain ⟨h1, h2⟩ := hO i h
    subst h1
    subst h2
    intro a b hab hb
    exact absurd hab (by omega)

/-- Concrete run of claim C1: key 3 into the buffer `[0, 2, 4]` of length 3
gives `AproxMatch 2`; shifting and writing yields a sorted 4-element
buffer. -/
theorem claim1_roundtrip_sorted_witness :
    SortedOn (writeAt (applyCopies (fun j => 2 * j) (shiftLoop 2 1)) 2 3) 4 :=
  (claim1_roundtrip_sorted (3 : Nat) (fun j => 2 * j) 3
    (fun i j hij _ => by show 2 * i ≤ 2 * j; omega)).2.1 2 (by decide)

/-- Claim C2: on a sorted buffer, if some index compares `Equal` then
`bsearch` returns such an index; if none does it returns the sentinel; and
on the empty buffer it returns the sentinel with no comparator calls. -/
theorem claim2_bsearch_exact [LinearOrder α] (key : α) (arr : Nat → α) (len nfv : Nat)
    (hs : SortedOn arr len) :
    ((∃ j, j < len ∧ cmpAt key arr j = Ordering.eq) →
        ∃ i, i < len ∧ cmpAt key arr i = Ordering.eq ∧ bsearch (cmpAt key arr) len nfv = i)
    ∧ ((∀ j, j < len → cmpAt key arr j ≠ Ordering.eq) →
        bsearch (cmpAt key arr) len nfv = nfv)
    ∧ (bsearch (cmpAt key arr) 0 nfv = nfv ∧ bsearchProbes (cmpAt key arr) 0 = []) := by
  obtain ⟨hSome, hNone⟩ := bsearchLoop_sound key arr len hs len 0 len (le_refl len) (by omega)
    (fun j hj => absurd hj (Nat.not_lt_zero j))
    (by intro j hj hjl; exfalso; omega)
  refine ⟨?_, ?_, rfl, rfl⟩
  · rintro ⟨j0, hj0, hj0eq⟩
    rcases hcase : (bsearchLoop (cmpAt key arr) len 0 len).1 with _ | i
    · exfalso
      exact hNone hcase j0 hj0 (cmpAt_eq.mp hj0eq).symm
    · obtain ⟨hi1, hi2⟩ := hSome i hcase
      refine ⟨i, hi1, cmpAt_eq.mpr hi2.symm, ?_⟩
      unfold bsearch
      rw [hcase]
  · intro habs
    rcases hcase : (bsearchLoop (cmpAt key arr) len 0 len).1 with _ | i
    · unfold bsearch
      rw [hcase]
    · exfalso
      obtain ⟨hi1, hi2⟩ := hSome i hcase
      exact habs i hi1 (cmpAt_eq.mpr hi2.symm)

/-- Concrete run of claim C2: key 1 is present at index 1 of `[0, 1]`, and
`bsearch` returns it. -/
theorem claim2_bsearch_exact_witness :
    ∃ i, i < 2 ∧ cmpAt (1 : Nat) (fun j => j) i = Ordering.eq ∧
      bsearch (cmpAt (1 : Nat) (fun j => j)) 2 7 = i :=
  (claim2_bsearch_exact (1 : Nat) (fun j => j) 2 7
    (fun i j hij _ => Nat.le_of_lt hij)).1 ⟨1, by decide, by decide⟩

/-- Claim C3: for any comparator, when the probe loop exhausts without an
exact match, the result is resolved from the last probed index `idx`:
`OutsideIndex idx` when `idx ≥ len`, otherwise `AproxMatch idx` on `Less`,
`ExactMatchIndex idx` on `Equal`, and `AproxMatch (idx + 1)` on
`Greater`. -/
theorem claim3_exhaust_resolution (cmp : Nat → Ordering) (len idx : Nat) (pr : List Nat)
    (h : aproxLoop cmp len 0 len 0 = (false, idx, pr)) :
    (len ≤ idx → aprox_bsearch cmp len = (AproxBinarySearchResult.OutsideIndex, idx))
    ∧ (idx < len →
        (cmp idx = Ordering.lt →
          aprox_bsearch cmp len = (AproxBinarySearchResult.AproxMatch, idx))
        ∧ (cmp idx = Ordering.eq →
          aprox_bsearch cmp len = (AproxBinarySearchResult.ExactMatchIndex, idx))
        ∧ (cmp idx = Ordering.gt →
          aprox_bsearch cmp len = (AproxBinarySearchResult.AproxMatch, idx + 1))) := by
  constructor
  · intro hle
    exact (aprox_bsearch_of_loop cmp len idx pr).2.1 h hle
  · intro hlt
    have he := (aprox_bsearch_of_loop cmp len idx pr).2.2 h hlt
    refine ⟨?_, ?_, ?_⟩ <;> intro hc <;> simp [he, hc]

/-- Concrete run of claim C3: the all-`Less` comparator on length 1
exhausts with last probe 0, and the re-comparison resolves to
`AproxMatch 0`. -/
theorem claim3_exhaust_resolution_witness :
    aprox_bsearch (fun _ => Ordering.lt) 1 = (AproxBinarySearchResult.AproxMatch, 0) :=
  ((claim3_exhaust_resolution (fun _ => Ordering.lt) 1 0 [0] (by decide)).2
    (by decide)).1 rfl

/-- Claim C4: on a sorted buffer at full capacity (`len = cap`) with the
key absent (no index compares `Equal`), `sorted_array_insert` returns
`ArrayCapacityExceeded` with the `not_allocated_value` sentinel and added
count 0, makes no copy calls, and the buffer is unchanged. -/
theorem claim4_capacity_exceeded [LinearOrder α] (key : α) (arr : Nat → α) (len nfv : Nat)
    (hs : SortedOn arr len)
    (habs : ∀ j, j < len → cmpAt key arr j ≠ Ordering.eq) :
    sorted_array_insert (cmpAt key arr) len len nfv =
      (SortedArrayAllocResult.ArrayCapacityExceeded, nfv, 0, [])
    ∧ applyCopies arr (sorted_array_insert (cmpAt key arr) len len nfv).2.2.2 = arr := by
  obtain ⟨hE, hA, hO⟩ := aprox_bsearch_sound key arr len hs
  rcases hap : aprox_bsearch (cmpAt key arr) len with ⟨res, i⟩
  have hmain : sorted_array_insert (cmpAt key arr) len len nfv =
      (SortedArrayAllocResult.ArrayCapacityExceeded, nfv, 0, []) := by
    cases res
    · exfalso
      obtain ⟨h1, h2⟩ := hE i hap
      exact habs i h1 (cmpAt_eq.mpr h2.symm)
    · rw [sorted_array_insert_aprox (cmpAt key arr) len len nfv i hap, if_neg (by omega)]
    · rw [sorted_array_insert_outside (cmpAt key arr) len len nfv i hap, if_neg (by omega)]
  refine ⟨hmain, ?_⟩
  rw [hmain]
  rfl

/-- Concrete run of claim C4: inserting the absent key 1 into the full
two-slot buffer `[0, 0]` is rejected with the sentinel and no copies. -/
theorem claim4_capacity_exceeded_witness :
    sorted_array_insert (cmpAt (1 : Nat) (fun _ => 0)) 2 2 9 =
      (SortedArrayAllocResult.ArrayCapacityExceeded, 9, 0, []) :=
  (claim4_capacity_exceeded (1 : Nat) (fun _ => 0) 2 9
    (fun _ _ _ _ => Nat.le_refl 0) (by decide)).1

/-- Claim C5: for any comparator, when the search yields `AproxMatch i`
with `i < len` and the capacity admits one more element, the copy calls
are exactly one per element of `[i, len)`, iterating tail-backward:
`(len-1, len), (len-2, len-1), ..., (i, i+1)` in that order, each moving a
source one slot right, and the result is `Ok` with index `i` and added
count 1. -/
theorem claim5_shift_calls (cmp : Nat → Ordering) (len cap nfv i : Nat)
    (h : aprox_bsearch cmp len = (AproxBinarySearchResult.AproxMatch, i))
    (hi : i < len) (hcap : len + 1 ≤ cap) :
    sorted_array_insert cmp len cap nfv =
      (SortedArrayAllocResult.Ok, i, 1,
        (List.range (len - i)).map (fun t => (len - 1 - t, len - 1 - t + 1))) := by
  rw [sorted_array_insert_aprox cmp len cap nfv i h, if_pos hcap,
    if_pos (show 0 < len - i by omega), shiftLoop_eq_map]

/-- Concrete run of claim C5: an all-`Less` comparator on length 2 with
capacity 3 gives `AproxMatch 0` and the two tail-backward copy calls
`(1, 2), (0, 1)`. -/
theorem claim5_shift_calls_witness :
    sorted_array_insert (fun _ => Ordering.lt) 2 3 9 =
      (SortedArrayAllocResult.Ok, 0, 1,
        (List.range 2).map (fun t => (2 - 1 - t, 2 - 1 - t + 1))) :=
  claim5_shift_calls (fun _ => Ordering.lt) 2 3 9 0 (by decide) (by decide) (by decide)

/-- Claim C6: on a sorted buffer containing the key, `sorted_array_insert`
returns `Ok` (already present) with the matching index and added count 0
and makes no copy calls; a second call on the (unchanged) buffer returns
the same result. -/
theorem claim6_already_present [LinearOrder α] (key : α) (arr : Nat → α) (len cap nfv : Nat)
    (hs : SortedOn arr len) (hk : ∃ j, j < len ∧ cmpAt key arr j = Ordering.eq) :
    ∃ i, i < len ∧ cmpAt key arr i = Ordering.eq ∧
      sorted_array_insert (cmpAt key arr) len cap nfv = (SortedArrayAllocResult.Ok, i, 0, [])
      ∧ sorted_array_insert
          (cmpAt key (applyCopies arr (sorted_array_insert (cmpAt key arr) len cap nfv).2.2.2))
          len cap nfv = (SortedArrayAllocResult.Ok, i, 0, []) := by
  obtain ⟨j0, hj0, hj0eq⟩ := hk
  obtain ⟨hE, hA, hO⟩ := aprox_bsearch_sound key arr len hs
  rcases hap : aprox_bsearch (cmpAt key arr) len with ⟨res, i⟩
  cases res
  · obtain ⟨h1, h2⟩ := hE i hap
    have hins : sorted_array_insert (cmpAt key arr) len cap nfv =
        (SortedArrayAllocResult.Ok, i, 0, []) :=
      sorted_array_insert_exact (cmpAt key arr) len cap nfv i hap
    refine ⟨i, h1, cmpAt_eq.mpr h2.symm, hins, ?_⟩
    rw [hins]
    exact hins
  · exfalso
    obtain ⟨hi1, hlo, hhi⟩ := hA i hap
    have hkey : key = arr j0 := cmpAt_eq.mp hj0eq
    rcases Nat.lt_or_ge j0 i with hlt | hge
    · exact ne_of_lt (hlo j0 hlt) hkey.symm
    · exact ne_of_lt (hhi j0 hge hj0) hkey
  · exfalso
    obtain ⟨h1, h2⟩ := hO i hap
    omega

/-- Concrete run of claim C6: key 1 present at index 1 of `[0, 1]`; both
the first and the repeated insert report it with no mutation. -/
theorem claim6_already_present_witness :
    ∃ i, i < 2 ∧ cmpAt (1 : Nat) (fun j => j) i = Ordering.eq ∧
      sorted_array_insert (cmpAt (1 : Nat) (fun j => j)) 2 2 9 =
        (SortedArrayAllocResult.Ok, i, 0, [])
      ∧ sorted_array_insert
          (cmpAt (1 : Nat)
            (applyCopies (fun j => j)
              (sorted_array_insert (cmpAt (1 : Nat) (fun j => j)) 2 2 9).2.2.2))
          2 2 9 = (SortedArrayAllocResult.Ok, i, 0, []) :=
  claim6_already_present (1 : Nat) (fun j => j) 2 2 9
    (fun i j hij _ => Nat.le_of_lt hij) ⟨1, by decide, by decide⟩

/-- Claim C7: for any (pure) comparator and a sentinel chosen outside
`[0, len)`, `bsearch` returns a non-sentinel index exactly when
`aprox_bsearch` reports `ExactMatchIndex`, in which case the indices
coincide; when `bsearch` returns the sentinel, `aprox_bsearch` reports
`AproxMatch` or `OutsideIndex`. -/
theorem claim7_search_consistency (cmp : Nat → Ordering) (len nfv : Nat) (hnf : len ≤ nfv) :
    (bsearch cmp len nfv ≠ nfv ↔
      (aprox_bsearch cmp len).1 = AproxBinarySearchResult.ExactMatchIndex)
    ∧ (bsearch cmp len nfv ≠ nfv → (aprox_bsearch cmp len).2 = bsearch cmp len nfv)
    ∧ (bsearch cmp len nfv = nfv →
        (aprox_bsearch cmp len).1 = AproxBinarySearchResult.AproxMatch ∨
        (aprox_bsearch cmp len).1 = AproxBinarySearchResult.OutsideIndex) := by
  rcases hr : aproxLoop cmp len 0 len 0 with ⟨found, ridx, rpro⟩
  have hag := loops_agree cmp len 0 len 0
  rw [hr] at hag
  cases found
  · have hbn : (bsearchLoop cmp len 0 len).1 = none := by
      rw [hag]
      simp
    have hbv : bsearch cmp len nfv = nfv := by
      unfold bsearch
      rw [hbn]
    by_cases hle : len ≤ ridx
    · have he := (aprox_bsearch_of_loop cmp len ridx rpro).2.1 hr hle
      refine ⟨⟨?_, ?_⟩, ?_, ?_⟩
      · intro hne
        exact absurd hbv hne
      · intro hout
        rw [he] at hout
        simp at hout
      · intro hne
        exact absurd hbv hne
      · intro _
        right
        simp [he]
    · have hrl : ridx < len := by omega
      have he := (aprox_bsearch_of_loop cmp len ridx rpro).2.2 hr hrl
      have hnee : ¬ cmp ridx = Ordering.eq := by
        have h2 := aproxLoop_exhaust_ne cmp len 0 len 0 (by omega) (le_refl len)
        rw [hr] at h2
        exact h2 rfl
      refine ⟨⟨?_, ?_⟩, ?_, ?_⟩
      · intro hne
        exact absurd hbv hne
      · intro hout
        rw [he] at hout
        rcases hc : cmp ridx with _ | _ | _
        · rw [hc] at hout
          simp at hout
        · exact absurd hc hnee
        · rw [hc] at hout
          simp at hout
      · intro hne
        exact absurd hbv hne
      · intro _
        left
        rcases hc : cmp ridx with _ | _ | _
        · simp [he, hc]
        · exact absurd hc hnee
        · simp [he, hc]
  · have he := (aprox_bsearch_of_loop cmp len ridx rpro).1 hr
    have hbs : (bsearchLoop cmp len 0 len).1 = some ridx := by
      rw [hag]
      simp
    have hlt : ridx < len := bsearchLoop_found_lt cmp len len 0 len ridx (by omega) hbs
    have hbv : bsearch cmp len nfv = ridx := by
      unfold bsearch
      rw [hbs]
    refine ⟨⟨?_, ?_⟩, ?_, ?_⟩
    · intro _
      simp [he]
    · intro _
      rw [hbv]
      omega
    · intro _
      simp [he, hbv]
    · intro heq
      exfalso
      rw [hbv] at heq
      omega

/-- Concrete run of claim C7: an all-`Greater` comparator on length 2 makes
`bsearch` return the sentinel, and `aprox_bsearch` resolves to an
approximate or outside outcome. -/
theorem claim7_search_consistency_witness :
    (aprox_bsearch (fun _ => Ordering.gt) 2).1 = AproxBinarySearchResult.AproxMatch ∨
    (aprox_bsearch (fun _ => Ordering.gt) 2).1 = AproxBinarySearchResult.OutsideIndex :=
  (claim7_search_consistency (fun _ => Ordering.gt) 2 5 (by decide)).2.2 (by decide)

/-- Claim C8: an `OutsideIndex` outcome carries `i = len` (it only happens
on the empty buffer, where `i = 0 = len`); with room, the insert is a pure
append (`Ok`, index `i`, added 1, no copies), otherwise capacity is
reported exceeded with the sentinel. -/
theorem claim8_outside_insert (cmp : Nat → Ordering) (len cap nfv i : Nat)
    (h : aprox_bsearch cmp len = (AproxBinarySearchResult.OutsideIndex, i)) :
    i = len
    ∧ (len + 1 ≤ cap →
        sorted_array_insert cmp len cap nfv = (SortedArrayAllocResult.Ok, i, 1, []))
    ∧ (cap < len + 1 →
        sorted_array_insert cmp len cap nfv =
          (SortedArrayAllocResult.ArrayCapacityExceeded, nfv, 0, [])) := by
  obtain ⟨h0, hi0⟩ := (aprox_bsearch_shape cmp len).2.1 i h
  refine ⟨by omega, ?_, ?_⟩
  · intro hcap
    rw [sorted_array_insert_outside cmp len cap nfv i h, if_pos hcap]
  · intro hcap
    rw [sorted_array_insert_outside cmp len cap nfv i h, if_neg (by omega)]

/-- Concrete run of claim C8: on the empty buffer with capacity 1 the
insert is a pure append at index 0. -/
theorem claim8_outside_insert_witness :
    sorted_array_insert (fun _ => Ordering.eq) 0 1 9 = (SortedArrayAllocResult.Ok, 0, 1, []) :=
  (claim8_outside_insert (fun _ => Ordering.eq) 0 1 9 0 (by decide)).2.1 (by decide)

/-- Claim C9: `aprox_bsearch` returns `OutsideIndex` exactly when the
logical length is 0, and then the index is 0; on a non-empty sorted buffer
whose every element compares `Greater` against the key, the outcome is
`AproxMatch` at index `len`, not `OutsideIndex`. -/
theorem claim9_outside_iff_empty [LinearOrder α] (cmp : Nat → Ordering)
    (key : α) (arr : Nat → α) (len : Nat) :
    ((aprox_bsearch cmp len).1 = AproxBinarySearchResult.OutsideIndex ↔ len = 0)
    ∧ ((aprox_bsearch cmp len).1 = AproxBinarySearchResult.OutsideIndex →
        (aprox_bsearch cmp len).2 = 0)
    ∧ (SortedOn arr len → 0 < len → (∀ j, j < len → cmpAt key arr j = Ordering.gt) →
        aprox_bsearch (cmpAt key arr) len = (AproxBinarySearchResult.AproxMatch, len)) := by
  obtain ⟨hz, ho, ha⟩ := aprox_bsearch_shape cmp len
  refine ⟨⟨?_, ?_⟩, ?_, ?_⟩
  · intro h
    rcases hap : aprox_bsearch cmp len with ⟨res, i⟩
    rw [hap] at h
    replace h : res = AproxBinarySearchResult.OutsideIndex := h
    subst h
    exact (ho i hap).1
  · intro h0
    simp [hz h0]
  · intro h
    rcases hap : aprox_bsearch cmp len with ⟨res, i⟩
    rw [hap] at h
    replace h : res = AproxBinarySearchResult.OutsideIndex := h
    subst h
    exact (ho i hap).2
  · intro hs hpos hgt
    obtain ⟨hE, hA, hO⟩ := aprox_bsearch_sound key arr len hs
    rcases hap : aprox_bsearch (cmpAt key arr) len with ⟨res, i⟩
    cases res
    · exfalso
      obtain ⟨h1, h2⟩ := hE i hap
      exact ne_of_lt (cmpAt_gt.mp (hgt i h1)) h2
    · obtain ⟨hi1, hlo, hhi⟩ := hA i hap
      have hilen : i = len := by
        by_contra hne
        have hilt : i < len := by omega
        exact absurd ((hhi i (le_refl i) hilt).trans (cmpAt_gt.mp (hgt i hilt)))
          (lt_irrefl key)
      rw [hilen]
    · exfalso
      obtain ⟨h1, h2⟩ := hO i hap
      omega

/-- Concrete run of claim C9: every element of `[0, 1, 2]` compares
`Greater` against key 5, and the outcome is `AproxMatch 3`, the append
position, not `OutsideIndex`. -/
theorem claim9_outside_iff_empty_witness :
    aprox_bsearch (cmpAt (5 : Nat) (fun j => j)) 3 = (AproxBinarySearchResult.AproxMatch, 3) :=
  (claim9_outside_iff_empty (fun _ => Ordering.lt) (5 : Nat) (fun j => j) 3).2.2
    (fun i j hij _ => Nat.le_of_lt hij) (by decide) (by decide)

/-- Claim C10: for any comparator, every index the library hands to an
injected capability is safe: all `bsearch` and `aprox_bsearch` comparator
probes are below the logical length; an `AproxMatch` index is at most the
logical length (so `len - i` cannot underflow); and every copy call has
its source below the logical length, its destination exactly source + 1,
at most the logical length and below the capacity, and its source at least
the returned insertion index (so the decremented `target_index` cannot
underflow). -/
theorem claim10_capability_safety (cmp : Nat → Ordering) (len cap nfv : Nat) :
    (∀ p, p ∈ bsearchProbes cmp len → p < len)
    ∧ (∀ p, p ∈ aproxProbes cmp len → p < len)
    ∧ (∀ i, aprox_bsearch cmp len = (AproxBinarySearchResult.AproxMatch, i) → i ≤ len)
    ∧ (∀ c, c ∈ (sorted_array_insert cmp len cap nfv).2.2.2 →
        c.1 < len ∧ c.2 = c.1 + 1 ∧ c.2 ≤ len ∧ c.2 < cap ∧
        (sorted_array_insert cmp len cap nfv).2.1 ≤ c.1) := by
  refine ⟨?_, ?_, (aprox_bsearch_shape cmp len).2.2, ?_⟩
  · intro p hp
    exact bsearchLoop_probes_lt cmp len len 0 len (by omega) p hp
  · intro p hp
    simp only [aproxProbes] at hp
    rcases hr : aproxLoop cmp len 0 len 0 with ⟨found, ridx, rpro⟩
    rw [hr] at hp
    have hloop : ∀ q, q ∈ rpro → q < len := by
      intro q hq
      have h2 := aproxLoop_probes_lt cmp len len 0 len 0 (by omega) q
      rw [hr] at h2
      exact h2 hq
    cases found
    · by_cases hle : len ≤ ridx
      · rw [if_neg (fun h => Bool.noConfusion h), if_pos hle] at hp
        exact hloop p hp
      · rw [if_neg (fun h => Bool.noConfusion h), if_neg hle] at hp
        rcases List.mem_append.mp hp with h | h
        · exact hloop p h
        · have hpr : p = ridx := by simpa using h
          omega
    · rw [if_pos rfl] at hp
      exact hloop p hp
  · intro c hc
    rcases hap : aprox_bsearch cmp len with ⟨res, i⟩
    cases res
    · rw [sorted_array_insert_exact cmp len cap nfv i hap] at hc
      simp at hc
    · have hinseq := sorted_array_insert_aprox cmp len cap nfv i hap
      by_cases hcap : len + 1 ≤ cap
      · have hidx : (sorted_array_insert cmp len cap nfv).2.1 = i := by
          rw [hinseq]
          simp [hcap]
        have hcalls : (sorted_array_insert cmp len cap nfv).2.2.2 =
            if 0 < len - i then shiftLoop (len - 1) (len - i) else [] := by
          rw [hinseq]
          simp [hcap]
        rw [hcalls] at hc
        by_cases hpos : 0 < len - i
        · rw [if_pos hpos, shiftLoop_eq_map] at hc
          obtain ⟨k, hk, hck⟩ := List.mem_map.mp hc
          have hklt : k < len - i := List.mem_range.mp hk
          have hile : i ≤ len := (aprox_bsearch_shape cmp len).2.2 i hap
          subst hck
          refine ⟨?_, ?_, ?_, ?_, ?_⟩
          · show len - 1 - k < len
            omega
          · show len - 1 - k + 1 = len - 1 - k + 1
            rfl
          · show len - 1 - k + 1 ≤ len
            omega
          · show len - 1 - k + 1 < cap
            omega
          · rw [hidx]
            show i ≤ len - 1 - k
            omega
        · rw [if_neg hpos] at hc
          simp at hc
      · have hcalls : (sorted_array_insert cmp len cap nfv).2.2.2 = [] := by
          rw [hinseq]
          simp [hcap]
        rw [hcalls] at hc
        simp at hc
    · have hinseq := sorted_array_insert_outside cmp len cap nfv i hap
      by_cases hcap : len + 1 ≤ cap
      · have hcalls : (sorted_array_insert cmp len cap nfv).2.2.2 = [] := by
          rw [hinseq]
          simp [hcap]
        rw [hcalls] at hc
        simp at hc
      · have hcalls : (sorted_array_insert cmp len cap nfv).2.2.2 = [] := by
          rw [hinseq]
          simp [hcap]
        rw [hcalls] at hc
        simp at hc

/-- Concrete run of claim C10: with an all-`Less` comparator on length 2,
capacity 3: probe 0 of both searches is in range, the `AproxMatch` index 0
is at most 2, and the copy call `(0, 1)` is in range with its source at
least the insertion index. -/
theorem claim10_capability_safety_witness :
    (0 < 2)
    ∧ (0 < 2)
    ∧ ((0 : Nat) ≤ 2)
    ∧ (((0 : Nat), (1 : Nat)).1 < 2 ∧ ((0 : Nat), (1 : Nat)).2 = ((0 : Nat), (1 : Nat)).1 + 1
        ∧ ((0 : Nat), (1 : Nat)).2 ≤ 2 ∧ ((0 : Nat), (1 : Nat)).2 < 3
        ∧ (sorted_array_insert (fun _ => Ordering.lt) 2 3 9).2.1 ≤ ((0 : Nat), (1 : Nat)).1) :=
  ⟨(claim10_capability_safety (fun _ => Ordering.lt) 2 3 9).1 0 (by decide),
   (claim10_capability_safety (fun _ => Ordering.lt) 2 3 9).2.1 0 (by decide),
   (claim10_capability_safety (fun _ => Ordering.lt) 2 3 9).2.2.1 0 (by decide),
   (claim10_capability_safety (fun _ => Ordering.lt) 2 3 9).2.2.2 (0, 1) (by decide)⟩
